import Mathlib

/-!
Verification development for the RNA statistical-potential pipeline
(`train.py` and `scoring.py`).

The Python code is shallowly embedded as follows.

* A residue record `(chain, res_id, res_name, (x, y, z))` becomes the
  structure `Residue`; coordinates are modelled as exact rationals
  (the PDB coordinate fields are finite decimals) and residue counts as
  natural numbers (`np.zeros(20)` holds small exact integers).
* A Python `dict` / `defaultdict` keyed by pair strings becomes a total
  function `Base × Base → Option _`; a key is "present" when the value is
  `some _`, and the defaultdict's create-on-access behaviour is embedded
  in the update operations (`hIncr`, `aggAddPair`).
* `int(math.sqrt(d2))` on a nonnegative square `d2` is embedded as
  `binOf d2`, the number of integers `b+1 ∈ [1,20]` with `(b+1)^2 ≤ d2`;
  this equals `⌊√d2⌋` clamped at 20, and the clamp is invisible because
  the code discards every bin index `≥ 20` (lemma `binOf_eq_floor_sqrt`
  relates it to the real square root).
* Real-valued score arithmetic (`math.log`) is modelled over `ℝ`.
-/

namespace RNA

/-- Base type of a valid RNA residue: one of A, C, G, U
(`VALID_RESIDUES = {"A", "U", "G", "C"}`). -/
inductive Base where
  | A : Base
  | C : Base
  | G : Base
  | U : Base
deriving DecidableEq, Fintype

/-- Alphabetical index of a base letter (A < C < G < U, as in Python's
`sorted` on the one-letter strings). -/
def baseVal : Base → ℕ
  | Base.A => 0
  | Base.C => 1
  | Base.G => 2
  | Base.U => 3

/-- Embedding of `''.join(sorted([res_name1, res_name2]))`: the canonical
(sorted) pair key of two base letters. -/
def pairKey (a b : Base) : Base × Base :=
  if baseVal a ≤ baseVal b then (a, b) else (b, a)

/-- All sixteen ordered two-letter combinations; the key space over which a
dict on pair strings is modelled.  Listed so that filtering out the six
non-canonical (unsorted) combinations leaves `validPairsT`. -/
def allPairs : List (Base × Base) :=
  [(Base.A, Base.A), (Base.A, Base.C), (Base.A, Base.G), (Base.A, Base.U),
   (Base.C, Base.A), (Base.C, Base.C), (Base.C, Base.G), (Base.C, Base.U),
   (Base.G, Base.A), (Base.G, Base.C), (Base.G, Base.G), (Base.G, Base.U),
   (Base.U, Base.A), (Base.U, Base.C), (Base.U, Base.G), (Base.U, Base.U)]

/-- The `VALID_PAIRS` literal of `train.py`:
`{"AA", "AC", "AG", "AU", "CC", "CG", "CU", "GG", "GU", "UU"}`. -/
def validPairsT : List (Base × Base) :=
  [(Base.A, Base.A), (Base.A, Base.C), (Base.A, Base.G), (Base.A, Base.U),
   (Base.C, Base.C), (Base.C, Base.G), (Base.C, Base.U),
   (Base.G, Base.G), (Base.G, Base.U), (Base.U, Base.U)]

/-- The `VALID_PAIRS` literal of `scoring.py`:
`{"AA", "AU", "AC", "AG", "CC", "CG", "CU", "GG", "GU", "UU"}` (same set,
written in a different order). -/
def validPairsS : List (Base × Base) :=
  [(Base.A, Base.A), (Base.A, Base.U), (Base.A, Base.C), (Base.A, Base.G),
   (Base.C, Base.C), (Base.C, Base.G), (Base.C, Base.U),
   (Base.G, Base.G), (Base.G, Base.U), (Base.U, Base.U)]

/-- Residue record produced by `parse_pdb`:
`(chain, res_id, res_name, (x, y, z))`. -/
structure Residue where
  chain : String
  resId : ℤ
  base : Base
  coord : ℚ × ℚ × ℚ
deriving DecidableEq

/-- Squared Euclidean distance,
`sum((a - b) ** 2 for a, b in zip(coord1, coord2))`. -/
def dist2 (c1 c2 : ℚ × ℚ × ℚ) : ℚ :=
  (c1.1 - c2.1) ^ 2 + (c1.2.1 - c2.2.1) ^ 2 + (c1.2.2 - c2.2.2) ^ 2

/-- Embedding of `bin_index = int(math.sqrt(q))` for a nonnegative square
`q`: the number of integers `b + 1 ∈ [1, 20]` with `(b + 1)^2 ≤ q`.  This is
`⌊√q⌋` clamped at 20 (see `binOf_eq_floor_sqrt`); the clamp never matters
because the code only uses the value after checking `bin_index < 20`. -/
def binOf (q : ℚ) : ℕ :=
  (List.range 20).countP (fun b : ℕ => decide (((b : ℚ) + 1) ^ 2 ≤ q))

/-- A 20-slot count vector, one slot per distance bin
(`initialize_counts` / `[0] * 20`). -/
abbrev Bins := Fin 20 → ℕ

/-- The all-zero count vector `np.zeros(20)` / `[0] * 20`. -/
def zeros : Bins := fun _ => 0

/-- Model of a Python dict keyed by pair strings: a key is present when the
value is `some _`. -/
abbrev Hist := Base × Base → Option Bins

/-- The empty dict. -/
def emptyHist : Hist := fun _ => none

/-- Embedding of `distances[pair][bin_index] += 1` on a
`defaultdict(initialize_counts)`: accessing a missing key creates it with a
zero vector, then the bin is incremented. -/
def hIncr (h : Hist) (p : Base × Base) (i : Fin 20) : Hist :=
  fun q =>
    if q = p then
      some (Function.update ((h p).getD zeros) i (((h p).getD zeros) i + 1))
    else h q

/-- Body of the double loop of `compute_distances` (`train.py` lines 32-40)
for one ordered residue pair: same chain and sequence separation ≥ 3, then
distance binning, the `bin_index < 20` cut, pair-key canonicalization and
the `pair in VALID_PAIRS` check, then the increment. -/
def pairStep (h : Hist) (r1 r2 : Residue) : Hist :=
  if r1.chain = r2.chain ∧ 3 ≤ |r1.resId - r2.resId| then
    if hb : binOf (dist2 r1.coord r2.coord) < 20 then
      if pairKey r1.base r2.base ∈ validPairsT then
        hIncr h (pairKey r1.base r2.base) ⟨binOf (dist2 r1.coord r2.coord), hb⟩
      else h
    else h
  else h

/-- Embedding of `compute_distances` (`train.py`): the nested
`for r1 in residues: for r2 in residues:` loop over `pairStep`. -/
def compute_distances (rs : List Residue) : Hist :=
  rs.foldl (fun h r1 => rs.foldl (fun h2 r2 => pairStep h2 r1 r2) h) emptyHist

/-- Condition under which one ordered residue pair is counted by
`compute_distances`: same chain, sequence separation at least 3, and the
distance bin below 20. -/
def qualifies (r1 r2 : Residue) : Prop :=
  r1.chain = r2.chain ∧ 3 ≤ |r1.resId - r2.resId| ∧
    binOf (dist2 r1.coord r2.coord) < 20

instance (r1 r2 : Residue) : Decidable (qualifies r1 r2) := by
  unfold qualifies; infer_instance

/-- Total of one 20-bin count vector. -/
def binsTotal (c : Bins) : ℕ := ∑ i, c i

/-- Sum of all bin counts over all pair keys of a histogram. -/
def grandTotal (h : Hist) : ℕ :=
  (allPairs.map (fun p => binsTotal ((h p).getD zeros))).sum

/-- Number of unordered pairs of distinct residue positions that are on the
same chain, have sequence separation at least 3, and distance bin below 20:
each list position is paired with every strictly later position. -/
def unorderedCount : List Residue → ℕ
  | [] => 0
  | r :: l => l.countP (fun r2 => decide (qualifies r r2)) + unorderedCount l

lemma mem_allPairs (p : Base × Base) : p ∈ allPairs := by
  rcases p with ⟨a, b⟩; cases a <;> cases b <;> decide

lemma nodup_allPairs : allPairs.Nodup := by decide

lemma pairKey_mem_validPairsT (a b : Base) : pairKey a b ∈ validPairsT := by
  cases a <;> cases b <;> decide

lemma dist2_comm (c1 c2 : ℚ × ℚ × ℚ) : dist2 c1 c2 = dist2 c2 c1 := by
  unfold dist2; ring

lemma qualifies_symm (r1 r2 : Residue) : qualifies r1 r2 ↔ qualifies r2 r1 := by
  unfold qualifies
  rw [dist2_comm, abs_sub_comm, eq_comm]

lemma not_qualifies_self (r : Residue) : ¬ qualifies r r := by
  intro h
  simp [qualifies] at h

lemma binsTotal_update (c : Bins) (i : Fin 20) :
    binsTotal (Function.update c i (c i + 1)) = binsTotal c + 1 := by
  unfold binsTotal
  rw [Finset.sum_update_of_mem (Finset.mem_univ i),
    Finset.sum_eq_sum_diff_singleton_add (Finset.mem_univ i) c]
  omega

lemma sum_map_update (L : List (Base × Base)) (f g : Base × Base → ℕ)
    (p : Base × Base) (hnd : L.Nodup) (hp : p ∈ L)
    (hfp : f p = g p + 1) (hq : ∀ q, q ≠ p → f q = g q) :
    (L.map f).sum = (L.map g).sum + 1 := by
  induction L with
  | nil => cases hp
  | cons a L ih =>
    rcases List.nodup_cons.mp hnd with ⟨hna, hndL⟩
    rcases List.mem_cons.mp hp with rfl | hpL
    · have : L.map f = L.map g := by
        apply List.map_congr_left
        intro q hqL
        exact hq q (fun hqp => hna (hqp ▸ hqL))
      simp only [List.map_cons, List.sum_cons, this, hfp]
      omega
    · have hap : a ≠ p := fun h => hna (h ▸ hpL)
      simp only [List.map_cons, List.sum_cons, hq a hap,
        ih hndL hpL]
      omega

lemma grandTotal_hIncr (h : Hist) (p : Base × Base) (i : Fin 20) :
    grandTotal (hIncr h p i) = grandTotal h + 1 := by
  unfold grandTotal
  apply sum_map_update allPairs _ _ p nodup_allPairs (mem_allPairs p)
  · simp only [hIncr, if_pos rfl, Option.getD_some]
    exact binsTotal_update _ i
  · intro q hqp
    simp only [hIncr, if_neg hqp]

lemma grandTotal_pairStep (h : Hist) (r1 r2 : Residue) :
    grandTotal (pairStep h r1 r2) =
      grandTotal h + (if qualifies r1 r2 then 1 else 0) := by
  unfold pairStep
  by_cases h1 : r1.chain = r2.chain ∧ 3 ≤ |r1.resId - r2.resId|
  · rw [if_pos h1]
    by_cases h2 : binOf (dist2 r1.coord r2.coord) < 20
    · rw [dif_pos h2, if_pos (pairKey_mem_validPairsT r1.base r2.base),
        grandTotal_hIncr, if_pos ⟨h1.1, h1.2, h2⟩]
    · rw [dif_neg h2, if_neg (fun hq => h2 hq.2.2)]
      omega
  · rw [if_neg h1, if_neg (fun hq => h1 ⟨hq.1, hq.2.1⟩)]
    omega

lemma foldl_inner_total (r1 : Residue) (l : List Residue) (h : Hist) :
    grandTotal (l.foldl (fun h2 r2 => pairStep h2 r1 r2) h) =
      grandTotal h + l.countP (fun r2 => decide (qualifies r1 r2)) := by
  induction l generalizing h with
  | nil => simp
  | cons r2 l ih =>
    simp only [List.foldl_cons, List.countP_cons, ih, grandTotal_pairStep]
    by_cases hq : qualifies r1 r2
    · simp [hq]; omega
    · simp [hq]

lemma foldl_outer_total (l' rs : List Residue) (h : Hist) :
    grandTotal (l'.foldl
        (fun h r1 => rs.foldl (fun h2 r2 => pairStep h2 r1 r2) h) h) =
      grandTotal h +
        (l'.map (fun r1 => rs.countP (fun r2 => decide (qualifies r1 r2)))).sum := by
  induction l' generalizing h with
  | nil => simp
  | cons r1 l' ih =>
    simp only [List.foldl_cons, List.map_cons, List.sum_cons, ih,
      foldl_inner_total]
    omega

lemma sum_map_ite_eq_countP (l : List Residue) (P : Residue → Prop)
    [DecidablePred P] :
    (l.map (fun x => if P x then 1 else 0)).sum = l.countP (fun x => decide (P x)) := by
  induction l with
  | nil => rfl
  | cons a l ih =>
    simp only [List.map_cons, List.sum_cons, List.countP_cons, ih]
    by_cases h : P a
    · simp [h]
      omega
    · simp [h]

lemma sum_map_add_distrib (l : List Residue) (f g : Residue → ℕ) :
    (l.map (fun x => f x + g x)).sum = (l.map f).sum + (l.map g).sum := by
  induction l with
  | nil => rfl
  | cons a l ih => simp only [List.map_cons, List.sum_cons, ih]; omega

lemma ordered_eq_twice (rs : List Residue) :
    (rs.map (fun r1 => rs.countP (fun r2 => decide (qualifies r1 r2)))).sum =
      2 * unorderedCount rs := by
  induction rs with
  | nil => rfl
  | cons r l ih =>
    have hhead : (r :: l).countP (fun r2 => decide (qualifies r r2)) =
        l.countP (fun r2 => decide (qualifies r r2)) := by
      rw [List.countP_cons]
      simp [not_qualifies_self r]
    have htail : ∀ r1, (r :: l).countP (fun r2 => decide (qualifies r1 r2)) =
        l.countP (fun r2 => decide (qualifies r1 r2)) +
          (if qualifies r1 r then 1 else 0) := by
      intro r1
      rw [List.countP_cons]
      by_cases hq : qualifies r1 r <;> simp [hq]
    have hswap : l.countP (fun r1 => decide (qualifies r1 r)) =
        l.countP (fun r1 => decide (qualifies r r1)) := by
      apply List.countP_congr
      intro x _
      show decide (qualifies x r) = true ↔ decide (qualifies r x) = true
      simp only [decide_eq_true_eq]
      exact qualifies_symm x r
    calc ((r :: l).map
          (fun r1 => (r :: l).countP (fun r2 => decide (qualifies r1 r2)))).sum
        = (r :: l).countP (fun r2 => decide (qualifies r r2)) +
            (l.map (fun r1 =>
              (r :: l).countP (fun r2 => decide (qualifies r1 r2)))).sum := by
          rfl
      _ = l.countP (fun r2 => decide (qualifies r r2)) +
            ((l.map (fun r1 => l.countP (fun r2 => decide (qualifies r1 r2)))).sum +
              (l.map (fun r1 => if qualifies r1 r then 1 else 0)).sum) := by
          rw [hhead]
          congr 1
          rw [← sum_map_add_distrib]
          apply congrArg
          apply List.map_congr_left
          intro r1 _
          exact htail r1
      _ = l.countP (fun r2 => decide (qualifies r r2)) +
            (2 * unorderedCount l + l.countP (fun r1 => decide (qualifies r1 r))) := by
          rw [ih, sum_map_ite_eq_countP]
      _ = 2 * unorderedCount (r :: l) := by
          rw [hswap]
          simp only [unorderedCount]
          omega

/-- Embedding of `combined_counts[pair][bin_idx] += count` over all 20 bins
of one pair on a `defaultdict(lambda: [0] * 20)`: accessing a missing key
creates it zero-filled, then every bin is increased by the incoming count. -/
def aggAddPair (acc : Hist) (p : Base × Base) (c : Bins) : Hist :=
  fun q =>
    if q = p then some (fun i => ((acc p).getD zeros) i + c i) else acc q

/-- Body of `aggregate_counts` for one `(pair, bins)` item of one incoming
histogram, including the `if pair in VALID_PAIRS` filter; a key absent from
the incoming dict contributes nothing. -/
def aggInner (h : Hist) (acc : Hist) (p : Base × Base) : Hist :=
  match h p with
  | none => acc
  | some c => if p ∈ validPairsT then aggAddPair acc p c else acc

/-- Folding one histogram's items into the accumulator
(`for pair, bins in distances.items(): ...`). -/
def aggStep (acc h : Hist) : Hist := allPairs.foldl (aggInner h) acc

/-- Embedding of `aggregate_counts` (`train.py`): fold every per-structure
histogram into an initially empty accumulator. -/
def aggregate_counts (l : List Hist) : Hist := l.foldl aggStep emptyHist

/-- Value-level effect of folding one incoming entry into an accumulator
entry: absent incoming counts leave the entry alone, present ones are added
onto the (possibly freshly zero-created) entry. -/
def combineOpt (x y : Option Bins) : Option Bins :=
  match y with
  | none => x
  | some c => some (fun i => (x.getD zeros) i + c i)

lemma aggInner_apply_ne (h acc : Hist) (p q : Base × Base) (hqp : q ≠ p) :
    aggInner h acc p q = acc q := by
  unfold aggInner
  cases h p with
  | none => rfl
  | some c =>
    by_cases hv : p ∈ validPairsT
    · simp [hv, aggAddPair, hqp]
    · simp [hv]

lemma aggInner_apply_self (h acc : Hist) (p : Base × Base) :
    aggInner h acc p p =
      if p ∈ validPairsT then combineOpt (acc p) (h p) else acc p := by
  unfold aggInner
  cases hhp : h p with
  | none => simp [combineOpt]
  | some c =>
    by_cases hv : p ∈ validPairsT
    · simp [hv, aggAddPair, combineOpt]
    · simp [hv]

lemma foldl_aggInner_apply (L : List (Base × Base)) (hnd : L.Nodup)
    (h acc : Hist) (p : Base × Base) :
    (L.foldl (aggInner h) acc) p =
      if p ∈ L then
        (if p ∈ validPairsT then combineOpt (acc p) (h p) else acc p)
      else acc p := by
  induction L generalizing acc with
  | nil => simp
  | cons a L ih =>
    rcases List.nodup_cons.mp hnd with ⟨hna, hndL⟩
    simp only [List.foldl_cons]
    rw [ih hndL]
    by_cases hpL : p ∈ L
    · have hpa : p ≠ a := fun hh => hna (hh ▸ hpL)
      rw [aggInner_apply_ne h acc a p hpa]
      simp [hpL]
    · by_cases hpa : p = a
      · subst hpa
        rw [aggInner_apply_self]
        simp [hpL]
      · rw [aggInner_apply_ne h acc a p hpa]
        simp [hpL, hpa]

lemma aggStep_apply (acc h : Hist) (p : Base × Base) :
    aggStep acc h p =
      if p ∈ validPairsT then combineOpt (acc p) (h p) else acc p := by
  unfold aggStep
  rw [foldl_aggInner_apply allPairs nodup_allPairs h acc p]
  simp [mem_allPairs p]

lemma combineOpt_left_comm (x y1 y2 : Option Bins) :
    combineOpt (combineOpt x y1) y2 = combineOpt (combineOpt x y2) y1 := by
  cases y1 with
  | none => cases y2 <;> rfl
  | some c1 =>
    cases y2 with
    | none => rfl
    | some c2 =>
      simp only [combineOpt, Option.getD_some]
      congr 1
      funext i
      omega

lemma aggStep_comm (acc h1 h2 : Hist) :
    aggStep (aggStep acc h1) h2 = aggStep (aggStep acc h2) h1 := by
  funext p
  rw [aggStep_apply, aggStep_apply, aggStep_apply, aggStep_apply]
  by_cases hv : p ∈ validPairsT
  · simp only [hv, if_pos]
    exact combineOpt_left_comm (acc p) (h1 p) (h2 p)
  · simp only [hv, if_neg, ite_false]

lemma aggregate_foldl_perm {l1 l2 : List Hist} (hp : l1.Perm l2) :
    ∀ acc : Hist, l1.foldl aggStep acc = l2.foldl aggStep acc := by
  induction hp with
  | nil => intro acc; rfl
  | cons x _ ih =>
    intro acc
    simp only [List.foldl_cons]
    exact ih _
  | swap x y l =>
    intro acc
    simp only [List.foldl_cons]
    rw [aggStep_comm]
  | trans _ _ ih1 ih2 =>
    intro acc
    rw [ih1 acc, ih2 acc]

/-- Claim C6: aggregation is order-independent: for every finite collection
of per-structure histograms and every permutation of it, `aggregate_counts`
produces the same aggregated counts. -/
theorem spec_C6 {l1 l2 : List Hist} (hp : l1.Perm l2) :
    aggregate_counts l1 = aggregate_counts l2 :=
  aggregate_foldl_perm hp emptyHist

/-- Concrete histogram used by the C6 witness. -/
def aggW1 : Hist := hIncr emptyHist (Base.A, Base.A) 0

/-- Concrete histogram used by the C6 witness. -/
def aggW2 : Hist := hIncr emptyHist (Base.C, Base.G) 5

/-- Witness for C6 at a concrete two-histogram collection and the swap
permutation. -/
theorem spec_C6_witness :
    aggregate_counts [aggW1, aggW2] = aggregate_counts [aggW2, aggW1] :=
  spec_C6 (List.Perm.swap aggW2 aggW1 [])

lemma countP_range_lt (n b : ℕ) :
    (List.range n).countP (fun c => decide (c < b)) = min b n := by
  induction n with
  | zero => simp
  | succ n ih =>
    rw [List.range_succ, List.countP_append, ih]
    by_cases h : n < b <;> simp [h] <;> omega

lemma binOf_eq_of (q : ℚ) (b : ℕ) (hb : b < 20)
    (h1 : ((b : ℚ)) ^ 2 ≤ q) (h2 : q < ((b : ℚ) + 1) ^ 2) : binOf q = b := by
  unfold binOf
  have hcong : ∀ c ∈ List.range 20,
      (decide (((c : ℚ) + 1) ^ 2 ≤ q) = true) ↔ (decide (c < b) = true) := by
    intro c _
    simp only [decide_eq_true_eq]
    constructor
    · intro hle
      by_contra hcb
      push_neg at hcb
      have : ((b : ℚ) + 1) ≤ ((c : ℚ) + 1) := by
        have : (b : ℚ) ≤ (c : ℚ) := by exact_mod_cast hcb
        linarith
      have : ((b : ℚ) + 1) ^ 2 ≤ ((c : ℚ) + 1) ^ 2 := by
        apply pow_le_pow_left₀ (by positivity) this
      linarith
    · intro hcb
      have hc1 : ((c : ℚ) + 1) ≤ (b : ℚ) := by
        have : (c : ℚ) + 1 ≤ (b : ℚ) := by exact_mod_cast hcb
        exact this
      have : ((c : ℚ) + 1) ^ 2 ≤ ((b : ℚ)) ^ 2 := by
        apply pow_le_pow_left₀ (by positivity) hc1
      linarith
  rw [List.countP_congr hcong, countP_range_lt]
  omega

lemma binOf_ge20 (q : ℚ) (h : (400 : ℚ) ≤ q) : binOf q = 20 := by
  unfold binOf
  have hcong : ∀ c ∈ List.range 20,
      (decide (((c : ℚ) + 1) ^ 2 ≤ q) = true) ↔ (decide (c < 20) = true) := by
    intro c hc
    have hc20 : c < 20 := List.mem_range.mp hc
    simp only [decide_eq_true_eq]
    constructor
    · intro _; exact hc20
    · intro _
      have hc1 : ((c : ℚ) + 1) ≤ 20 := by
        have : (c : ℚ) ≤ 19 := by exact_mod_cast Nat.lt_succ_iff.mp hc20
        linarith
      have : ((c : ℚ) + 1) ^ 2 ≤ (20 : ℚ) ^ 2 := by
        apply pow_le_pow_left₀ (by positivity) hc1
      calc ((c : ℚ) + 1) ^ 2 ≤ (20 : ℚ) ^ 2 := this
        _ = 400 := by norm_num
        _ ≤ q := h
  rw [List.countP_congr hcong, countP_range_lt]
  simp

lemma binOf_eq_floor_sqrt (q : ℚ) (hq : 0 ≤ q) :
    binOf q = min ⌊Real.sqrt (q : ℝ)⌋₊ 20 := by
  unfold binOf
  have hcong : ∀ b ∈ List.range 20,
      (decide (((b : ℚ) + 1) ^ 2 ≤ q) = true) ↔
        (decide (b < ⌊Real.sqrt (q : ℝ)⌋₊) = true) := by
    intro b _
    simp only [decide_eq_true_eq]
    have hqr : (0 : ℝ) ≤ (q : ℝ) := by exact_mod_cast hq
    constructor
    · intro hle
      have hler : ((b : ℝ) + 1) ^ 2 ≤ (q : ℝ) := by exact_mod_cast hle
      have hsq : ((b : ℝ) + 1) ≤ Real.sqrt (q : ℝ) :=
        (Real.le_sqrt' (by positivity)).mpr hler
      have : ((b + 1 : ℕ) : ℝ) ≤ Real.sqrt (q : ℝ) := by push_cast; linarith
      have := (Nat.le_floor_iff (Real.sqrt_nonneg _)).mpr this
      omega
    · intro hlt
      have hble : b + 1 ≤ ⌊Real.sqrt (q : ℝ)⌋₊ := hlt
      have h1 : ((b + 1 : ℕ) : ℝ) ≤ Real.sqrt (q : ℝ) :=
        (Nat.le_floor_iff (Real.sqrt_nonneg _)).mp hble
      have h2 : ((b : ℝ) + 1) ^ 2 ≤ (q : ℝ) := by
        have hx : ((b : ℝ) + 1) ≤ Real.sqrt (q : ℝ) := by
          push_cast at h1
          linarith
        exact (Real.le_sqrt' (by positivity)).mp hx
      exact_mod_cast h2
  rw [List.countP_congr hcong, countP_range_lt]

lemma pairStep_of_not (h : Hist) (r1 r2 : Residue) (hn : ¬ qualifies r1 r2) :
    pairStep h r1 r2 = h := by
  unfold pairStep
  by_cases h1 : r1.chain = r2.chain ∧ 3 ≤ |r1.resId - r2.resId|
  · rw [if_pos h1]
    by_cases h2 : binOf (dist2 r1.coord r2.coord) < 20
    · exact absurd ⟨h1.1, h1.2, h2⟩ hn
    · rw [dif_neg h2]
  · rw [if_neg h1]

lemma pairStep_of_qual (h : Hist) (r1 r2 : Residue) (hq : qualifies r1 r2) :
    pairStep h r1 r2 =
      hIncr h (pairKey r1.base r2.base)
        ⟨binOf (dist2 r1.coord r2.coord), hq.2.2⟩ := by
  unfold pairStep
  rw [if_pos ⟨hq.1, hq.2.1⟩, dif_pos hq.2.2,
    if_pos (pairKey_mem_validPairsT r1.base r2.base)]

/-- Observed frequency of one bin in `calculate_scores`
(`count / total_counts if total_counts > 0 else 0`). -/
noncomputable def obsFreq (c : Bins) (i : Fin 20) : ℝ :=
  if 0 < ∑ j, c j then (c i : ℝ) / ((∑ j, c j : ℕ) : ℝ) else 0

/-- Per-bin capped log-odds scores of one pair's aggregated counts
(`train.py` lines 57-63): reference frequency `1 / 20`, raw score
`-log(observed / reference)` when the observed frequency is positive and
the sentinel `10` otherwise, capped at `10`. -/
noncomputable def scoreBins (c : Bins) : Fin 20 → ℝ := fun i =>
  let observed_freq := obsFreq c i
  let ref_freq : ℝ := 1 / 20
  let score := if 0 < observed_freq then -Real.log (observed_freq / ref_freq)
    else 10
  min score 10

/-- Embedding of `calculate_scores` (`train.py`): one score vector per pair
key present in the aggregated counts. -/
noncomputable def calculate_scores (cc : Hist) :
    Base × Base → Option (Fin 20 → ℝ) :=
  fun p => (cc p).map scoreBins

/-- Claim C2 (amended): every derived score equals
`min(raw, 10)` with `raw = -ln(observed / (1/20))` for positive observed
frequency and the sentinel `10` otherwise; hence every score is at most 10
and a bin with observed frequency 0 scores exactly 10.  (The converse of
the last part is false: see the counterexample.) -/
theorem spec_C2_amended (cc : Hist) (p : Base × Base) (s : Fin 20 → ℝ)
    (hs : calculate_scores cc p = some s) :
    ∃ c, cc p = some c ∧ ∀ i,
      s i = min (if 0 < obsFreq c i then -Real.log (obsFreq c i / (1 / 20))
        else 10) 10 ∧
      s i ≤ 10 ∧
      (obsFreq c i = 0 → s i = 10) := by
  unfold calculate_scores at hs
  cases hc : cc p with
  | none => rw [hc] at hs; cases hs
  | some c =>
    rw [hc] at hs
    refine ⟨c, rfl, ?_⟩
    have hsc : s = scoreBins c := by
      cases hs; rfl
    subst hsc
    intro i
    refine ⟨rfl, min_le_right _ _, ?_⟩
    intro hzero
    show min (if 0 < obsFreq c i then -Real.log (obsFreq c i / (1 / 20))
      else 10) 10 = 10
    rw [hzero]
    norm_num

/-- Concrete aggregated counts breaking the "score = 10 exactly when the
frequency is 0" direction of C2: bin 0 holds 1 count out of 440530. -/
def cBad : Bins := fun i => if i.val = 0 then 1 else if i.val = 1 then 440529 else 0

/-- Concrete aggregated histogram holding `cBad` under one key. -/
def ccBad : Hist := fun p => if p = (Base.A, Base.A) then some cBad else none

lemma cBad_total : (∑ j, cBad j) = 440530 := by decide

lemma obsFreq_cBad : obsFreq cBad 0 = 1 / 440530 := by
  unfold obsFreq
  rw [cBad_total]
  norm_num [cBad]

/-- Counterexample to claim C2 as stated: in the score table derived from
`ccBad`, bin 0 of the pair AA has a strictly positive observed frequency
and nevertheless scores exactly 10 (because the raw log-odds score exceeds
the cap), so "score = 10 exactly when the observed frequency is 0" fails. -/
theorem spec_C2_counterexample :
    calculate_scores ccBad (Base.A, Base.A) = some (scoreBins cBad) ∧
    scoreBins cBad 0 = 10 ∧ obsFreq cBad 0 ≠ 0 := by
  refine ⟨rfl, ?_, ?_⟩
  · show min (if 0 < obsFreq cBad 0
      then -Real.log (obsFreq cBad 0 / (1 / 20)) else 10) 10 = 10
    rw [obsFreq_cBad]
    rw [if_pos (by norm_num : (0 : ℝ) < 1 / 440530)]
    have harg : (1 / 440530 : ℝ) / (1 / 20) = 2 / 44053 := by norm_num
    rw [harg]
    have hlog : -Real.log (2 / 44053) = Real.log (44053 / 2) := by
      rw [← Real.log_inv]
      norm_num
    rw [hlog]
    have h10 : (10 : ℝ) ≤ Real.log (44053 / 2) := by
      rw [Real.le_log_iff_exp_le (by norm_num : (0 : ℝ) < 44053 / 2)]
      have hpow : Real.exp 10 = Real.exp 1 ^ 10 := by
        rw [Real.exp_one_pow]
        norm_num
      rw [hpow]
      calc Real.exp 1 ^ 10 ≤ (2.7182818286 : ℝ) ^ 10 := by
            apply pow_le_pow_left₀ (Real.exp_pos 1).le Real.exp_one_lt_d9.le
        _ ≤ 44053 / 2 := by norm_num
    exact min_eq_right h10
  · rw [obsFreq_cBad]
    norm_num

/-- Concrete aggregated histogram used by the C2 witness. -/
def ccW : Hist :=
  fun p => if p = (Base.A, Base.A) then some (fun _ => 1) else none

/-- Witness for the amended C2 at a concrete aggregated histogram. -/
theorem spec_C2_amended_witness :
    ∃ c, ccW (Base.A, Base.A) = some c ∧ ∀ i,
      scoreBins (fun _ => 1) i =
        min (if 0 < obsFreq c i then -Real.log (obsFreq c i / (1 / 20))
          else 10) 10 ∧
      scoreBins (fun _ => 1) i ≤ 10 ∧
      (obsFreq c i = 0 → scoreBins (fun _ => 1) i = 10) :=
  spec_C2_amended ccW (Base.A, Base.A) (scoreBins (fun _ => 1)) rfl

/-- Every key present in a histogram has strictly positive total count. -/
def histPos (h : Hist) : Prop :=
  ∀ p c, h p = some c → 0 < binsTotal c

lemma histPos_empty : histPos emptyHist := by
  intro p c h
  simp [emptyHist] at h

lemma histPos_hIncr (h : Hist) (p : Base × Base) (i : Fin 20)
    (hh : histPos h) : histPos (hIncr h p i) := by
  intro q c heq
  unfold hIncr at heq
  by_cases hq : q = p
  · rw [if_pos hq] at heq
    have hc : c = Function.update ((h p).getD zeros) i
        (((h p).getD zeros) i + 1) := by
      cases heq; rfl
    rw [hc, binsTotal_update]
    omega
  · rw [if_neg hq] at heq
    exact hh q c heq

lemma histPos_pairStep (h : Hist) (r1 r2 : Residue) (hh : histPos h) :
    histPos (pairStep h r1 r2) := by
  unfold pairStep
  split_ifs
  · exact histPos_hIncr _ _ _ hh
  all_goals exact hh

lemma histPos_foldl {α : Type} (f : Hist → α → Hist)
    (hf : ∀ h a, histPos h → histPos (f h a)) :
    ∀ (l : List α) (h : Hist), histPos h → histPos (l.foldl f h) := by
  intro l
  induction l with
  | nil => intro h hh; exact hh
  | cons a l ih =>
    intro h hh
    exact ih _ (hf h a hh)

lemma histPos_compute (rs : List Residue) : histPos (compute_distances rs) := by
  unfold compute_distances
  exact histPos_foldl _
    (fun h r1 hh => histPos_foldl _
      (fun h2 r2 hh2 => histPos_pairStep h2 r1 r2 hh2) rs h hh)
    rs emptyHist histPos_empty

lemma binsTotal_add (a b : Bins) :
    binsTotal (fun i => a i + b i) = binsTotal a + binsTotal b := by
  unfold binsTotal
  rw [← Finset.sum_add_distrib]

lemma histPos_aggStep (acc h : Hist) (ha : histPos acc) (hh : histPos h) :
    histPos (aggStep acc h) := by
  intro p c heq
  rw [aggStep_apply] at heq
  by_cases hv : p ∈ validPairsT
  · rw [if_pos hv] at heq
    unfold combineOpt at heq
    cases hhp : h p with
    | none => rw [hhp] at heq; exact ha p c heq
    | some c2 =>
      rw [hhp] at heq
      have hc : c = fun i => ((acc p).getD zeros) i + c2 i := by
        cases heq; rfl
      rw [hc, binsTotal_add]
      have := hh p c2 hhp
      omega
  · rw [if_neg hv] at heq
    exact ha p c heq

lemma histPos_aggregate_aux (l : List Hist) :
    ∀ acc : Hist, (∀ h ∈ l, histPos h) → histPos acc →
      histPos (l.foldl aggStep acc) := by
  induction l with
  | nil => intro acc _ hacc; exact hacc
  | cons h l ih =>
    intro acc hl hacc
    exact ih _ (fun h2 hh2 => hl h2 (List.mem_cons_of_mem h hh2))
      (histPos_aggStep acc h hacc (hl h (List.mem_cons_self h l)))

/-- Claim C8: every pair key present in a histogram built by
`compute_distances` has strictly positive total count, and the same holds
after aggregating the per-structure histograms of a corpus; keys are created
only when a count is incremented, so the zero-total guard of
`calculate_scores` is unreachable on pipeline histograms. -/
theorem spec_C8 :
    (∀ (rs : List Residue) (p : Base × Base) (c : Bins),
        compute_distances rs p = some c → 0 < binsTotal c) ∧
    (∀ (corpus : List (List Residue)) (p : Base × Base) (c : Bins),
        aggregate_counts (corpus.map compute_distances) p = some c →
          0 < binsTotal c) := by
  constructor
  · intro rs p c heq
    exact histPos_compute rs p c heq
  · intro corpus p c heq
    have : histPos (aggregate_counts (corpus.map compute_distances)) := by
      unfold aggregate_counts
      apply histPos_aggregate_aux _ emptyHist _ histPos_empty
      intro h hh
      rcases List.mem_map.mp hh with ⟨rs, _, rfl⟩
      exact histPos_compute rs
    exact this p c heq

/-- First residue of the worked two-residue structure (chain A, position 1,
base A, coordinate origin). -/
def rW1 : Residue := ⟨"A", 1, Base.A, (0, 0, 0)⟩

/-- Second residue of the worked two-residue structure (chain A, position 5,
base C, coordinate 3.5 along z). -/
def rW2 : Residue := ⟨"A", 5, Base.C, (0, 0, 7 / 2)⟩

/-- Distance bin index 3, where the worked pair lands. -/
def iW : Fin 20 := ⟨3, by omega⟩

/-- Expected AC entry of the worked structure's histogram: two counts in
bin 3 (one per ordering of the pair). -/
def cW : Bins := Function.update zeros iW 2

lemma distW : dist2 rW1.coord rW2.coord = 49 / 4 := by
  norm_num [dist2, rW1, rW2]

lemma binW : binOf (dist2 rW1.coord rW2.coord) = 3 := by
  rw [distW]
  exact binOf_eq_of _ 3 (by omega) (by norm_num) (by norm_num)

lemma binW2 : binOf (dist2 rW2.coord rW1.coord) = 3 := by
  rw [dist2_comm]
  exact binW

lemma qualW12 : qualifies rW1 rW2 :=
  ⟨rfl, by norm_num [rW1, rW2], by rw [binW]; omega⟩

lemma qualW21 : qualifies rW2 rW1 := (qualifies_symm rW1 rW2).mp qualW12

lemma computeW_eval :
    compute_distances [rW1, rW2] (Base.A, Base.C) = some cW := by
  show ([rW1, rW2].foldl
    (fun h r1 => [rW1, rW2].foldl (fun h2 r2 => pairStep h2 r1 r2) h)
    emptyHist) (Base.A, Base.C) = some cW
  simp only [List.foldl_cons, List.foldl_nil]
  rw [pairStep_of_not _ _ _ (not_qualifies_self rW1),
    pairStep_of_qual _ _ _ qualW12,
    pairStep_of_not _ _ _ (not_qualifies_self rW2),
    pairStep_of_qual _ _ _ qualW21]
  have hk1 : pairKey rW1.base rW2.base = (Base.A, Base.C) := rfl
  have hk2 : pairKey rW2.base rW1.base = (Base.A, Base.C) := rfl
  simp only [hk1, hk2, binW, binW2]
  show hIncr (hIncr emptyHist (Base.A, Base.C) ⟨3, by omega⟩)
      (Base.A, Base.C) ⟨3, by omega⟩ (Base.A, Base.C) = some cW
  simp [hIncr, emptyHist, cW, iW, zeros, Function.update_idem,
    Function.update_same]

/-- Witness for C8: on the worked two-residue structure, the AC key is
present and its total count is positive. -/
theorem spec_C8_witness : 0 < binsTotal cW :=
  spec_C8.1 [rW1, rW2] (Base.A, Base.C) cW computeW_eval

/-- Body of the double loop inside `compute_distances_and_scores`
(`scoring.py` lines 44-52); textually the same accumulation as
`train.py`'s, with `scoring.py`'s own `VALID_PAIRS` literal. -/
def pairStepS (h : Hist) (r1 r2 : Residue) : Hist :=
  if r1.chain = r2.chain ∧ 3 ≤ |r1.resId - r2.resId| then
    if hb : binOf (dist2 r1.coord r2.coord) < 20 then
      if pairKey r1.base r2.base ∈ validPairsS then
        hIncr h (pairKey r1.base r2.base) ⟨binOf (dist2 r1.coord r2.coord), hb⟩
      else h
    else h
  else h

/-- The per-structure histogram built inside `compute_distances_and_scores`
(`scoring.py`): nested loop over `pairStepS` from an empty defaultdict. -/
def scoringHist (rs : List Residue) : Hist :=
  rs.foldl (fun h r1 => rs.foldl (fun h2 r2 => pairStepS h2 r1 r2) h) emptyHist

/-- Inner scoring loop of `compute_distances_and_scores` (`scoring.py`
lines 57-63) for one pair's bins: the capped log-odds formula recomputed
from this structure's own counts, summed over the 20 bins. -/
noncomputable def pairScoreS (bins : Bins) : ℝ :=
  ∑ i, (let observed_freq : ℝ :=
          if 0 < ∑ j, bins j then (bins i : ℝ) / ((∑ j, bins j : ℕ) : ℝ)
          else 0
        let ref_freq : ℝ := 1 / 20
        let score :=
          if 0 < observed_freq then -Real.log (observed_freq / ref_freq)
          else 10
        min score 10)

/-- Embedding of `compute_distances_and_scores` (`scoring.py`): build the
structure's own histogram, then for each of its keys also present in the
loaded score table add the recomputed pair score
(`if pair in scores: total_score += pair_score`). -/
noncomputable def compute_distances_and_scores (rs : List Residue)
    (scores : Base × Base → Option (Fin 20 → ℝ)) : ℝ :=
  (allPairs.map (fun p =>
    match scoringHist rs p with
    | none => 0
    | some bins => if (scores p).isSome then pairScoreS bins else 0)).sum

/-- Embedding of `evaluate_structures` (`scoring.py`): sum the
per-structure scores and divide by the number of structures, returning 0
for an empty group (the file-reading layer is abstracted: each file is
represented by its parsed residue list, the score directory by the loaded
table). -/
noncomputable def evaluate_structures (structs : List (List Residue))
    (scores : Base × Base → Option (Fin 20 → ℝ)) : ℝ :=
  let total := (structs.map
    (fun rs => compute_distances_and_scores rs scores)).sum
  if 0 < structs.length then total / (structs.length : ℝ) else 0

lemma validPairs_same (p : Base × Base) :
    p ∈ validPairsS ↔ p ∈ validPairsT := by
  rcases p with ⟨a, b⟩; cases a <;> cases b <;> decide

lemma pairStepS_eq (h : Hist) (r1 r2 : Residue) :
    pairStepS h r1 r2 = pairStep h r1 r2 := by
  unfold pairStepS pairStep
  by_cases h1 : r1.chain = r2.chain ∧ 3 ≤ |r1.resId - r2.resId|
  · rw [if_pos h1, if_pos h1]
    by_cases h2 : binOf (dist2 r1.coord r2.coord) < 20
    · rw [dif_pos h2, dif_pos h2]
      by_cases h3 : pairKey r1.base r2.base ∈ validPairsT
      · rw [if_pos h3, if_pos ((validPairs_same _).mpr h3)]
      · rw [if_neg h3, if_neg (fun hc => h3 ((validPairs_same _).mp hc))]
    · rw [dif_neg h2, dif_neg h2]
  · rw [if_neg h1, if_neg h1]

lemma hist_paths_agree (rs : List Residue) :
    scoringHist rs = compute_distances rs := by
  unfold scoringHist compute_distances
  have hstep : pairStepS = pairStep := by
    funext h r1 r2
    exact pairStepS_eq h r1 r2
  rw [hstep]

/-- Claim C9: the per-structure histogram built inside the scoring path
equals, key for key and bin for bin, the histogram built by the training
path's `compute_distances` on the same residue list. -/
theorem spec_C9 (rs : List Residue) (p : Base × Base) :
    scoringHist rs p = compute_distances rs p := by
  rw [hist_paths_agree rs]

lemma foldl_apply_inv_mem {α : Type} (f : Hist → α → Hist)
    (p : Base × Base) (l : List α)
    (hf : ∀ h a, a ∈ l → f h a p = h p) :
    ∀ h : Hist, (l.foldl f h) p = h p := by
  induction l with
  | nil => intro h; rfl
  | cons a l ih =>
    intro h
    simp only [List.foldl_cons]
    rw [ih (fun h2 b hb => hf h2 b (List.mem_cons_of_mem a hb))]
    exact hf h a (List.mem_cons_self a l)

lemma pairStep_apply_of_not (h : Hist) (r1 r2 : Residue) (p : Base × Base)
    (hn : ¬ (qualifies r1 r2 ∧ pairKey r1.base r2.base = p)) :
    pairStep h r1 r2 p = h p := by
  by_cases hq : qualifies r1 r2
  · rw [pairStep_of_qual _ _ _ hq]
    unfold hIncr
    rw [if_neg (fun hc : p = pairKey r1.base r2.base =>
      hn ⟨hq, hc.symm⟩)]
  · rw [pairStep_of_not _ _ _ hq]

lemma compute_apply_none (rs : List Residue) (p : Base × Base)
    (hno : ∀ r1 ∈ rs, ∀ r2 ∈ rs,
      ¬ (qualifies r1 r2 ∧ pairKey r1.base r2.base = p)) :
    compute_distances rs p = none := by
  unfold compute_distances
  rw [foldl_apply_inv_mem _ p rs
    (fun h r1 hr1 => foldl_apply_inv_mem _ p rs
      (fun h2 r2 hr2 => pairStep_apply_of_not h2 r1 r2 p
        (hno r1 hr1 r2 hr2)) h)]
  rfl

lemma compute_not_valid (rs : List Residue) (p : Base × Base)
    (hp : p ∉ validPairsT) : compute_distances rs p = none := by
  apply compute_apply_none
  intro r1 _ r2 _ hcon
  exact hp (hcon.2 ▸ pairKey_mem_validPairsT r1.base r2.base)

lemma pairScoreS_eq_sum_scoreBins (bins : Bins) :
    pairScoreS bins = ∑ i, scoreBins bins i := by
  unfold pairScoreS scoreBins obsFreq
  rfl

lemma sum_allPairs_eq_validPairsT (g : Base × Base → ℝ)
    (hg : ∀ p ∉ validPairsT, g p = 0) :
    (allPairs.map g).sum = (validPairsT.map g).sum := by
  simp only [allPairs, validPairsT, List.map_cons, List.map_nil,
    List.sum_cons, List.sum_nil]
  rw [hg (Base.C, Base.A) (by decide), hg (Base.G, Base.A) (by decide),
    hg (Base.G, Base.C) (by decide), hg (Base.U, Base.A) (by decide),
    hg (Base.U, Base.C) (by decide), hg (Base.U, Base.G) (by decide)]
  ring

/-- Claim C5: the structure's pseudo-energy is the sum, over pair keys
present in both the structure's own histogram and the loaded table, over
all 20 bins, of the capped log-odds score recomputed by the training
formula (`scoreBins`) from this structure's own counts; and the table's
stored per-bin values are never used — only which keys are present
matters. -/
theorem spec_C5 (rs : List Residue)
    (scores : Base × Base → Option (Fin 20 → ℝ)) :
    compute_distances_and_scores rs scores =
      (validPairsT.map (fun p =>
        match compute_distances rs p, scores p with
        | some bins, some _ => ∑ i, scoreBins bins i
        | _, _ => 0)).sum ∧
    ∀ scores₂ : Base × Base → Option (Fin 20 → ℝ),
      (∀ p, (scores p).isSome = (scores₂ p).isSome) →
      compute_distances_and_scores rs scores =
        compute_distances_and_scores rs scores₂ := by
  constructor
  · unfold compute_distances_and_scores
    have hpt : ∀ p, (match scoringHist rs p with
        | none => (0 : ℝ)
        | some bins => if (scores p).isSome then pairScoreS bins else 0) =
        (match compute_distances rs p, scores p with
        | some bins, some _ => ∑ i, scoreBins bins i
        | _, _ => 0) := by
      intro p
      rw [hist_paths_agree rs]
      cases compute_distances rs p with
      | none => rfl
      | some bins =>
        cases scores p with
        | none => rfl
        | some l => simp [pairScoreS_eq_sum_scoreBins]
    rw [List.map_congr_left (fun p _ => hpt p)]
    apply sum_allPairs_eq_validPairsT
    intro p hp
    rw [compute_not_valid rs p hp]
  · intro scores₂ hsame
    unfold compute_distances_and_scores
    apply congrArg
    apply List.map_congr_left
    intro p _
    cases scoringHist rs p with
    | none => rfl
    | some bins => rw [hsame p]

/-- Concrete score table used by witnesses: a single AA entry of zeros. -/
def tblW : Base × Base → Option (Fin 20 → ℝ) :=
  fun p => if p = (Base.A, Base.A) then some (fun _ => 0) else none

/-- Concrete score table with the same key set as `tblW` but different
stored values. -/
def tblW2 : Base × Base → Option (Fin 20 → ℝ) :=
  fun p => if p = (Base.A, Base.A) then some (fun _ => 5) else none

/-- Witness for C5 at a concrete structure and two concrete tables that
agree on key presence only. -/
theorem spec_C5_witness :
    (compute_distances_and_scores [rW1, rW2] tblW =
      (validPairsT.map (fun p =>
        match compute_distances [rW1, rW2] p, tblW p with
        | some bins, some _ => ∑ i, scoreBins bins i
        | _, _ => 0)).sum) ∧
    compute_distances_and_scores [rW1, rW2] tblW =
      compute_distances_and_scores [rW1, rW2] tblW2 :=
  ⟨(spec_C5 [rW1, rW2] tblW).1,
    (spec_C5 [rW1, rW2] tblW).2 tblW2 (by
      intro p
      by_cases hp : p = (Base.A, Base.A) <;> simp [tblW, tblW2, hp])⟩

/-- Claim C10: the evaluation driver returns 0 for an empty group of
candidate structures, and the sum of per-structure scores divided by the
group size for a non-empty group. -/
theorem spec_C10 (structs : List (List Residue))
    (scores : Base × Base → Option (Fin 20 → ℝ)) :
    evaluate_structures [] scores = 0 ∧
    (structs ≠ [] → evaluate_structures structs scores =
      (structs.map (fun rs => compute_distances_and_scores rs scores)).sum /
        (structs.length : ℝ)) := by
  constructor
  · simp [evaluate_structures]
  · intro hne
    unfold evaluate_structures
    rw [if_pos (List.length_pos.mpr hne)]

/-- Witness for C10 at a concrete one-element group. -/
theorem spec_C10_witness :
    evaluate_structures [] tblW = 0 ∧
    evaluate_structures [[]] tblW =
      ([[]].map (fun rs => compute_distances_and_scores rs tblW)).sum /
        (([[]] : List (List Residue)).length : ℝ) :=
  ⟨(spec_C10 [[]] tblW).1,
    (spec_C10 [[]] tblW).2 (List.cons_ne_nil [] [])⟩

/-- Quantization performed by writing a score with `f"{score:.4f}"`:
rounding to four decimal places. -/
noncomputable def round4 (x : ℝ) : ℚ := ((round (x * 10000) : ℤ) : ℚ) / 10000

open Classical in
/-- Embedding of `write_scores` (`train.py`): for each valid pair present
in the score table and having at least one strictly positive score, emit
its 20 scores at 4-decimal precision; the emitted files are modelled as a
map from pair key to the quantized score vector, `none` meaning no file. -/
noncomputable def write_scores
    (scores : Base × Base → Option (Fin 20 → ℝ)) :
    Base × Base → Option (Fin 20 → ℚ) :=
  fun p =>
    if p ∈ validPairsT then
      match scores p with
      | some l => if ∃ i, 0 < l i then some (fun i => round4 (l i)) else none
      | none => none
    else none

/-- Embedding of `read_scores` (`scoring.py`): for each valid pair whose
file exists, parse its 20 values (a 4-decimal fixed-point literal is read
back exactly); a missing file leaves the pair out of the loaded table. -/
noncomputable def read_scores
    (files : Base × Base → Option (Fin 20 → ℚ)) :
    Base × Base → Option (Fin 20 → ℝ) :=
  fun p =>
    if p ∈ validPairsS then (files p).map (fun l i => ((l i : ℚ) : ℝ))
    else none

/-- Claim C7: writing a score table and reading it back reproduces, for
every pair that passed the write-suppression criterion (valid pair, some
score strictly positive), a 20-entry score vector within 4-decimal rounding
tolerance (each entry within 1/20000 of the original). -/
theorem spec_C7 (table : Base × Base → Option (Fin 20 → ℝ))
    (p : Base × Base) (l : Fin 20 → ℝ)
    (hl : table p = some l) (hp : p ∈ validPairsT) (hpos : ∃ i, 0 < l i) :
    ∃ l', read_scores (write_scores table) p = some l' ∧
      ∀ i, |l' i - l i| ≤ 1 / 20000 := by
  refine ⟨fun i => ((round4 (l i) : ℚ) : ℝ), ?_, ?_⟩
  · unfold read_scores write_scores
    rw [if_pos ((validPairs_same p).mpr hp), if_pos hp, hl]
    show Option.map (fun l i => ((l i : ℚ) : ℝ))
      (if ∃ i, 0 < l i then some fun i => round4 (l i) else none) =
      some fun i => ((round4 (l i) : ℚ) : ℝ)
    rw [if_pos hpos]
    rfl
  · intro i
    show |((round4 (l i) : ℚ) : ℝ) - l i| ≤ 1 / 20000
    have h1 : ((round4 (l i) : ℚ) : ℝ) =
        ((round (l i * 10000) : ℤ) : ℝ) / 10000 := by
      unfold round4
      push_cast
      ring
    rw [h1]
    have h2 : ((round (l i * 10000) : ℤ) : ℝ) / 10000 - l i =
        (((round (l i * 10000) : ℤ) : ℝ) - l i * 10000) / 10000 := by
      ring
    rw [h2, abs_div]
    have h3 : |(10000 : ℝ)| = 10000 := by norm_num
    rw [h3]
    have h4 : |((round (l i * 10000) : ℤ) : ℝ) - l i * 10000| ≤ 1 / 2 := by
      rw [abs_sub_comm]
      exact abs_sub_round (l i * 10000)
    linarith

/-- Witness for C7 at a concrete one-pair table with positive scores. -/
theorem spec_C7_witness :
    ∃ l', read_scores (write_scores tblW2) (Base.A, Base.A) = some l' ∧
      ∀ i, |l' i - (fun _ => (5 : ℝ)) i| ≤ 1 / 20000 :=
  spec_C7 tblW2 (Base.A, Base.A) (fun _ => 5) rfl (by decide)
    ⟨0, by norm_num⟩

/-- The trained score table of the full training pipeline: per-structure
histograms, aggregation, then score derivation. -/
noncomputable def trainedTable (corpus : List (List Residue)) :
    Base × Base → Option (Fin 20 → ℝ) :=
  calculate_scores (aggregate_counts (corpus.map compute_distances))

lemma aggregate_apply_none (l : List Hist) (p : Base × Base)
    (hl : ∀ h ∈ l, h p = none) :
    ∀ acc : Hist, acc p = none → (l.foldl aggStep acc) p = none := by
  induction l with
  | nil => intro acc hacc; exact hacc
  | cons h l ih =>
    intro acc hacc
    simp only [List.foldl_cons]
    apply ih (fun h2 hh2 => hl h2 (List.mem_cons_of_mem h hh2))
    rw [aggStep_apply, hl h (List.mem_cons_self h l)]
    by_cases hv : p ∈ validPairsT
    · rw [if_pos hv]
      exact hacc
    · rw [if_neg hv]
      exact hacc

lemma trainedTable_none_of_never (corpus : List (List Residue))
    (p : Base × Base)
    (hno : ∀ rs ∈ corpus, ∀ r1 ∈ rs, ∀ r2 ∈ rs,
      ¬ (qualifies r1 r2 ∧ pairKey r1.base r2.base = p)) :
    trainedTable corpus p = none ∧
      write_scores (trainedTable corpus) p = none := by
  have hagg : aggregate_counts (corpus.map compute_distances) p = none := by
    unfold aggregate_counts
    apply aggregate_apply_none _ p _ emptyHist rfl
    intro h hh
    rcases List.mem_map.mp hh with ⟨rs, hrs, rfl⟩
    exact compute_apply_none rs p (hno rs hrs)
  have htbl : trainedTable corpus p = none := by
    unfold trainedTable calculate_scores
    rw [hagg]
    rfl
  refine ⟨htbl, ?_⟩
  unfold write_scores
  by_cases hv : p ∈ validPairsT
  · rw [if_pos hv, htbl]
  · rw [if_neg hv]

/-- Claim C3 (amended): a valid pair that never occurs within 20 Å (with
the chain and separation conditions) anywhere in the training corpus is
absent from the trained score table — it does not receive 20 sentinel
scores of 10 — and consequently no score file is written for it. -/
theorem spec_C3_amended (corpus : List (List Residue)) (p : Base × Base)
    (hno : ∀ rs ∈ corpus, ∀ r1 ∈ rs, ∀ r2 ∈ rs,
      ¬ (qualifies r1 r2 ∧ pairKey r1.base r2.base = p)) :
    trainedTable corpus p = none ∧
      write_scores (trainedTable corpus) p = none :=
  trainedTable_none_of_never corpus p hno

/-- Residue G of the C3 example corpus (chain A, position 1, origin). -/
def rG : Residue := ⟨"A", 1, Base.G, (0, 0, 0)⟩

/-- Residue C of the C3 example corpus, 25 Å away along z. -/
def rC : Residue := ⟨"A", 5, Base.C, (0, 0, 25)⟩

/-- One-structure corpus in which the pair of G with C occurs only beyond
20 Å. -/
def corpusGC : List (List Residue) := [[rG, rC]]

lemma not_qualifies_rG_rC : ¬ qualifies rG rC := by
  intro hq
  have hd : dist2 rG.coord rC.coord = 625 := by
    norm_num [dist2, rG, rC]
  have hb : binOf (dist2 rG.coord rC.coord) = 20 := by
    rw [hd]
    exact binOf_ge20 625 (by norm_num)
  have := hq.2.2
  omega

lemma corpusGC_never (p : Base × Base) :
    ∀ rs ∈ corpusGC, ∀ r1 ∈ rs, ∀ r2 ∈ rs,
      ¬ (qualifies r1 r2 ∧ pairKey r1.base r2.base = p) := by
  intro rs hrs r1 hr1 r2 hr2 hcon
  have hrs2 : rs = [rG, rC] := by
    simpa [corpusGC] using hrs
  subst hrs2
  rcases List.mem_cons.mp hr1 with rfl | hr1'
  · rcases List.mem_cons.mp hr2 with rfl | hr2'
    · exact not_qualifies_self _ hcon.1
    · have : r2 = rC := by simpa using hr2'
      subst this
      exact not_qualifies_rG_rC hcon.1
  · have h1 : r1 = rC := by simpa using hr1'
    subst h1
    rcases List.mem_cons.mp hr2 with rfl | hr2'
    · exact not_qualifies_rG_rC ((qualifies_symm rC rG).mp hcon.1)
    · have h2 : r2 = rC := by simpa using hr2'
      subst h2
      exact not_qualifies_self rC hcon.1

/-- Counterexample to claim C3 as stated: in the corpus `corpusGC` the
canonical key for G with C never occurs within 20 Å; the trained table then
has NO entry for that key (rather than 20 sentinel scores of 10) and no
score file is written for it, contradicting "a score file IS written". -/
theorem spec_C3_counterexample :
    trainedTable corpusGC (Base.C, Base.G) = none ∧
      write_scores (trainedTable corpusGC) (Base.C, Base.G) = none :=
  trainedTable_none_of_never corpusGC (Base.C, Base.G)
    (corpusGC_never (Base.C, Base.G))

/-- Witness for the amended C3 at the concrete corpus. -/
theorem spec_C3_amended_witness :
    trainedTable corpusGC (Base.G, Base.G) = none ∧
      write_scores (trainedTable corpusGC) (Base.G, Base.G) = none :=
  spec_C3_amended corpusGC (Base.G, Base.G)
    (corpusGC_never (Base.G, Base.G))

/-- The apostrophe character (of the backbone atom name). -/
def apos : Char := Char.ofNat 39

/-- Python `str.strip()` with default whitespace. -/
def pyStrip (l : List Char) : List Char :=
  ((l.dropWhile Char.isWhitespace).reverse.dropWhile Char.isWhitespace).reverse

/-- Python slice `l[a:b]` (never raises, clamps at the ends). -/
def pySlice (l : List Char) (a b : ℕ) : List Char := (l.take b).drop a

/-- Python `line.startswith("ATOM")`. -/
def startsWithATOM (l : List Char) : Bool :=
  decide (pySlice l 0 4 = ['A', 'T', 'O', 'M'])

/-- Python `"C3'" in line`: some position starts the three characters of
the backbone atom name. -/
def hasC3 : List Char → Bool
  | [] => false
  | c :: rest =>
    (decide (c = 'C') && decide (rest.take 2 = ['3', apos])) || hasC3 rest

/-- The filter of `parse_pdb`:
`line.startswith("ATOM") and "C3'" in line`. -/
def candidate (l : List Char) : Bool := startsWithATOM l && hasC3 l

/-- Numeric value of a decimal digit character. -/
def digVal (c : Char) : ℕ := c.toNat - 48

/-- Nonempty all-digit check (what Python's `int` accepts after sign and
stripping). -/
def allDigits (l : List Char) : Bool :=
  decide (l ≠ []) && l.all Char.isDigit

/-- Value of a digit string. -/
def natOfDigits (l : List Char) : ℕ :=
  l.foldl (fun acc c => 10 * acc + digVal c) 0

/-- Python `int(s)` on a string: optional sign then digits, surrounding
whitespace tolerated; anything else raises (`none`). -/
def pyInt (l : List Char) : Option ℤ :=
  match pyStrip l with
  | '-' :: rest =>
    if allDigits rest then some (-((natOfDigits rest : ℕ) : ℤ)) else none
  | '+' :: rest =>
    if allDigits rest then some (((natOfDigits rest : ℕ) : ℤ)) else none
  | s => if allDigits s then some (((natOfDigits s : ℕ) : ℤ)) else none

/-- Unsigned decimal literal accepted by Python's `float`: digits with an
optional fractional point (`"12"`, `"12."`, `".5"`, `"12.5"`); the
scientific-notation forms, which never occur in fixed-column coordinate
fields, are outside the modelled subset. -/
def pyFloatCore (s : List Char) : Option ℚ :=
  match s.dropWhile (fun c => c != '.') with
  | [] => if allDigits s then some ((natOfDigits s : ℕ) : ℚ) else none
  | _ :: frac =>
    let ip := s.takeWhile (fun c => c != '.')
    if (ip.all Char.isDigit && frac.all Char.isDigit) &&
        (!ip.isEmpty || !frac.isEmpty) then
      some (((natOfDigits ip : ℕ) : ℚ) +
        ((natOfDigits frac : ℕ) : ℚ) / (10 : ℚ) ^ frac.length)
    else none

/-- Python `float(s)` on a coordinate field: optional sign around
`pyFloatCore`, surrounding whitespace tolerated; anything else raises
(`none`). -/
def pyFloat (l : List Char) : Option ℚ :=
  match pyStrip l with
  | '-' :: rest => (pyFloatCore rest).map (fun q => -q)
  | '+' :: rest => pyFloatCore rest
  | s => pyFloatCore s

/-- The `res_name in VALID_RESIDUES` test combined with reading the base
letter. -/
def baseOfName : List Char → Option Base
  | ['A'] => some Base.A
  | ['C'] => some Base.C
  | ['G'] => some Base.G
  | ['U'] => some Base.U
  | _ => none

/-- Embedding of the body of `parse_pdb` for one line: lines failing the
ATOM/C3' filter are skipped (`ok none`); on a candidate line, `line[21]`
raises IndexError when the line is too short, `int(line[22:26].strip())`
and the three `float` fields raise ValueError when malformed
(`error ()`); a residue outside the valid set is skipped after the integer
parse. -/
def parseLine (l : List Char) : Except Unit (Option Residue) :=
  if candidate l then
    match l.get? 21 with
    | none => Except.error ()
    | some ch =>
      match pyInt (pySlice l 22 26) with
      | none => Except.error ()
      | some rid =>
        match baseOfName (pyStrip (pySlice l 17 20)) with
        | none => Except.ok none
        | some b =>
          match pyFloat (pySlice l 30 38), pyFloat (pySlice l 38 46),
              pyFloat (pySlice l 46 54) with
          | some x, some y, some z =>
            Except.ok (some ⟨String.mk (pyStrip [ch]), rid, b, (x, y, z)⟩)
          | _, _, _ => Except.error ()
  else Except.ok none

/-- Line-by-line accumulation of `parse_pdb`, aborting at the first raised
exception. -/
def parseAux : List (List Char) → List Residue → Except Unit (List Residue)
  | [], acc => Except.ok acc
  | l :: rest, acc =>
    match parseLine l with
    | Except.error e => Except.error e
    | Except.ok none => parseAux rest acc
    | Except.ok (some r) => parseAux rest (acc ++ [r])

/-- Embedding of `parse_pdb` (identical in `train.py` and `scoring.py`) on
the lines of an already-opened file. -/
def parse_pdb (lines : List (List Char)) : Except Unit (List Residue) :=
  parseAux lines []

lemma parseLine_not_candidate (l : List Char) (hc : candidate l = false) :
    parseLine l = Except.ok none := by
  unfold parseLine
  simp [hc]

lemma parseAux_isOk (lines : List (List Char))
    (h : ∀ l ∈ lines, (parseLine l).isOk = true) :
    ∀ acc, (parseAux lines acc).isOk = true := by
  induction lines with
  | nil => intro acc; rfl
  | cons l rest ih =>
    intro acc
    have hl := h l (List.mem_cons_self _ _)
    have hrest : ∀ l2 ∈ rest, (parseLine l2).isOk = true :=
      fun l2 hl2 => h l2 (List.mem_cons_of_mem l hl2)
    simp only [parseAux]
    cases hpl : parseLine l with
    | error e => rw [hpl] at hl; simp [Except.isOk, Except.toBool] at hl
    | ok v =>
      cases v with
      | none => exact ih hrest acc
      | some r => exact ih hrest (acc ++ [r])

/-- Claim C4 (amended): lines failing the ATOM/C3' filter are silently
skipped and never raise, and the parser returns normally whenever every
candidate line parses; but — contrary to the claim — a malformed candidate
line does raise (see the counterexample). -/
theorem spec_C4_amended (lines : List (List Char)) :
    ((∀ l ∈ lines, candidate l = true → (parseLine l).isOk = true) →
      (parse_pdb lines).isOk = true) ∧
    (∀ l ∈ lines, candidate l = false → parseLine l = Except.ok none) := by
  constructor
  · intro h
    apply parseAux_isOk
    intro l hl
    by_cases hc : candidate l = true
    · exact h l hl hc
    · have hcf : candidate l = false := by
        simpa using hc
      rw [parseLine_not_candidate l hcf]
      rfl
  · intro l _ hc
    exact parseLine_not_candidate l hc

/-- Malformed candidate line: starts with ATOM, contains the backbone atom
name, but is much too short, so `line[21]` raises IndexError. -/
def badLine : List Char := ['A', 'T', 'O', 'M', ' ', 'C', '3', apos]

/-- Well-formed fixed-column ATOM record for the backbone atom of residue
A, chain A, position 1, coordinates (0, 0, 3.5). -/
def goodLine : List Char :=
  ['A', 'T', 'O', 'M'] ++ List.replicate 8 ' ' ++ ['C', '3', apos] ++
  [' ', ' '] ++ ['A', ' ', ' '] ++ [' '] ++ ['A'] ++
  [' ', ' ', ' ', '1'] ++ List.replicate 4 ' ' ++
  [' ', ' ', ' ', '0', '.', '0', '0', '0'] ++
  [' ', ' ', ' ', '0', '.', '0', '0', '0'] ++
  [' ', ' ', ' ', '3', '.', '5', '0', '0']

/-- An irrelevant record line. -/
def otherLine : List Char := ['R', 'E', 'M', 'A', 'R', 'K']

/-- Counterexample to claim C4 as stated: this file content can be read,
yet the parser raises on it (the malformed candidate line is not silently
skipped), so the parser does not return normally on every readable file. -/
theorem spec_C4_counterexample :
    parse_pdb [badLine] = Except.error () ∧ candidate badLine = true := by
  exact ⟨rfl, by decide⟩

/-- Witness for the amended C4 at a concrete two-line file with one
well-formed candidate line and one irrelevant line. -/
theorem spec_C4_amended_witness :
    ((parse_pdb [goodLine, otherLine]).isOk = true) ∧
    (∀ l ∈ [goodLine, otherLine], candidate l = false →
      parseLine l = Except.ok none) :=
  ⟨(spec_C4_amended [goodLine, otherLine]).1 (by decide),
    (spec_C4_amended [goodLine, otherLine]).2⟩

/-- Claim C1: the sum over all pair keys and all 20 bins of the histogram
produced by `compute_distances` equals twice the number of unordered pairs
of distinct residue positions that are on the same chain, have sequence
separation at least 3, and have distance bin below 20: each qualifying
unordered pair is counted exactly twice. -/
theorem spec_C1 (rs : List Residue) :
    grandTotal (compute_distances rs) = 2 * unorderedCount rs := by
  unfold compute_distances
  rw [foldl_outer_total, ordered_eq_twice]
  simp [grandTotal, emptyHist, binsTotal, zeros]

end RNA
